import Mathlib

/-!
Shallow embedding of the SQL authoring assistant frontend
(src/frontend/src/components/monaco-editor.tsx and
src/frontend/src/components/query-interface.tsx).

JavaScript strings are modelled as `List Char` (editor text) or `String`
(UI state fields); the JS string/regex operations used by the source are
translated into executable Lean functions below, each annotated with the
source construct it embeds.
-/

namespace PureSql

/-- JS regex class `\s` (ASCII part, which is all the source texts use):
space, tab, newline, carriage return, vertical tab, form feed. -/
def isWs (c : Char) : Bool :=
  c = ' ' || c = '\t' || c = '\n' || c = '\x0d' || c = '\x0b' || c = '\x0c'

/-- JS regex class `\w`: ASCII alphanumeric or underscore. -/
def isWordChar (c : Char) : Bool :=
  c.isAlpha || c.isDigit || c = '_'

/-- ASCII lowercasing, as used by the JS case-insensitive `i` regex flag on
the ASCII keywords FROM, JOIN, AS. -/
def lowerChar (c : Char) : Char := c.toLower

/-- JS `str.split(sep)` for a single-character separator: splits at every
occurrence, keeping empty segments, and yields `[""]` on the empty string. -/
def splitOnChar (sep : Char) : List Char → List (List Char)
  | [] => [[]]
  | c :: rest =>
    if c = sep then [] :: splitOnChar sep rest
    else
      match splitOnChar sep rest with
      | [] => [[c]]
      | p :: ps => (c :: p) :: ps

/-- JS `str.trim()`: drop whitespace from both ends. -/
def trimList (l : List Char) : List Char :=
  ((l.dropWhile isWs).reverse.dropWhile isWs).reverse

/-- JS unanchored `regex.test` for a literal pattern: does `pat` occur as a
contiguous subsequence of `l`? -/
def containsSeq (pat l : List Char) : Bool :=
  l.tails.any (fun t => pat.isPrefixOf t)

namespace MonacoEditor

/-- One entry pushed by `parseSqlAndFindTableNameAndAliases` in
monaco-editor.tsx: a table name and the alias chosen for it. -/
structure TableRef where
  table_name : List Char
  aliasName : List Char
deriving DecidableEq

/-- One successful match of the source regex
`\b(?:FROM|JOIN)\s+([^\s.]+(?:\.[^\s.]+)?)\s*(?:AS)?\s*([^\s,]+)?` (flags
`gi`), with the positions the JS engine would report: `start` is the match
start, `tableEnd` the end position (exclusive) of capture group 1 in the
input, `table` the text of group 1, `aliasTok` group 2 (absent when the
optional group did not participate), `endPos` the end of the whole match
(the next `lastIndex`). -/
structure RawMatch where
  start : Nat
  tableEnd : Nat
  table : List Char
  aliasTok : Option (List Char)
  endPos : Nat
deriving DecidableEq

/-- Length of the maximal `\s*` run of `s` starting at position `n`. -/
def wsLen (s : List Char) (n : Nat) : Nat :=
  ((s.drop n).takeWhile isWs).length

/-- Length of the maximal `[^\s.]*` run of `s` starting at position `n`. -/
def tokLen (s : List Char) (n : Nat) : Nat :=
  ((s.drop n).takeWhile (fun c => !isWs c && c != '.')).length

/-- Length of the maximal `[^\s,]*` run of `s` starting at position `n`. -/
def aliasLen (s : List Char) (n : Nat) : Nat :=
  ((s.drop n).takeWhile (fun c => !isWs c && c != ',')).length

/-- The `\b` word boundary before the keyword: position `i` starts the match
only if it is the string start or the previous character is not a word
character (the following character is a word character, F or J). -/
def boundaryAt (s : List Char) (i : Nat) : Bool :=
  i == 0 || !(isWordChar (s.getD (i - 1) ' '))

/-- Case-insensitive `(?:FROM|JOIN)` at position `i`. -/
def keywordAt (s : List Char) (i : Nat) : Bool :=
  ((s.drop i).take 4).map lowerChar == "from".toList ||
  ((s.drop i).take 4).map lowerChar == "join".toList

/-- End position (exclusive) of capture group 1 `[^\s.]+(?:\.[^\s.]+)?` when
its mandatory part ends at `t1`: the greedy optional part adds a dot and a
nonempty `[^\s.]+` run when present. -/
def tableEndAt (s : List Char) (t1 : Nat) : Nat :=
  if s[t1]? = some '.' ∧ tokLen s (t1 + 1) ≠ 0 then t1 + 1 + tokLen s (t1 + 1)
  else t1

/-- Start of capture group 1: after the keyword (4 chars) and the `\s+` run. -/
def kPos (s : List Char) (i : Nat) : Nat := i + 4 + wsLen s (i + 4)

/-- End of the mandatory `[^\s.]+` part of group 1. -/
def t1Pos (s : List Char) (i : Nat) : Nat := kPos s i + tokLen s (kPos s i)

/-- End of capture group 1 for a match starting at `i`. -/
def tEndPos (s : List Char) (i : Nat) : Nat := tableEndAt s (t1Pos s i)

/-- Text of capture group 1. -/
def tableTok (s : List Char) (i : Nat) : List Char :=
  (s.drop (kPos s i)).take (tEndPos s i - kPos s i)

/-- Position after the first `\s*` following group 1. -/
def p1Pos (s : List Char) (i : Nat) : Nat := tEndPos s i + wsLen s (tEndPos s i)

/-- Greedy case-insensitive `(?:AS)?` at position `n`. -/
def asAt (s : List Char) (n : Nat) : Bool :=
  (s[n]?.map lowerChar == some 'a') && (s[n + 1]?.map lowerChar == some 's')

/-- Position after `(?:AS)?`. -/
def p2Pos (s : List Char) (i : Nat) : Nat :=
  if asAt s (p1Pos s i) then p1Pos s i + 2 else p1Pos s i

/-- Position after the second `\s*`: start of capture group 2. -/
def p3Pos (s : List Char) (i : Nat) : Nat := p2Pos s i + wsLen s (p2Pos s i)

/-- Length of capture group 2 `([^\s,]+)?` (0 when absent). -/
def r3Len (s : List Char) (i : Nat) : Nat := aliasLen s (p3Pos s i)

/-- Attempt the source regex at position `i`. Greedy matching needs no
backtracking here: `\s` and `[^\s.]` are disjoint classes and everything
after group 1 can match the empty string, so each piece takes its maximal
run exactly as the JS engine does. -/
def matchAt (s : List Char) (i : Nat) : Option RawMatch :=
  if boundaryAt s i && keywordAt s i then
    if wsLen s (i + 4) = 0 ∨ tokLen s (kPos s i) = 0 then none
    else
      some
        { start := i
          tableEnd := tEndPos s i
          table := tableTok s i
          aliasTok :=
            if r3Len s i = 0 then none
            else some ((s.drop (p3Pos s i)).take (r3Len s i))
          endPos := p3Pos s i + r3Len s i }
  else none

/-- The `while (true) { regex.exec(sql) }` loop with the `g` flag: search for
the leftmost match at or after `pos`, emit it, continue from its end. Every
match consumes at least six characters, so `s.length + 1` steps of fuel are
enough to visit every start position. -/
def scanLoop (s : List Char) : Nat → Nat → List RawMatch
  | 0, _ => []
  | fuel + 1, pos =>
    match matchAt s pos with
    | some m => m :: scanLoop s fuel m.endPos
    | none => scanLoop s fuel (pos + 1)

/-- All matches of the source regex over `s`, in left-to-right order. -/
def execAll (s : List Char) : List RawMatch :=
  scanLoop s (s.length + 1) 0

/-- The alias filter `/on|where|inner|left|right|join/.test(alias)` from the
source: a case-sensitive, unanchored substring test. -/
def keywordLikeAlias (a : List Char) : Bool :=
  containsSeq "on".toList a || containsSeq "where".toList a ||
  containsSeq "inner".toList a || containsSeq "left".toList a ||
  containsSeq "right".toList a || containsSeq "join".toList a

/-- The `/\(/.test(table_name)` filter from the source. -/
def hasParenChar (t : List Char) : Bool :=
  t.any (fun c => c == '(')

/-- The alias the source keeps for one match: group 2 unless it fails the
keyword filter or is absent, in which case the table name itself
(`alias || table_name`; group 2 is never the empty string). -/
def refOfMatch (m : RawMatch) : TableRef :=
  { table_name := m.table
    aliasName :=
      match m.aliasTok with
      | none => m.table
      | some a => if keywordLikeAlias a then m.table else a }

/-- `parseSqlAndFindTableNameAndAliases` from monaco-editor.tsx: run the
regex loop, drop matches whose table name contains a parenthesis, and pair
each kept table name with its alias. -/
def parseSqlAndFindTableNameAndAliases (sql : List Char) : List TableRef :=
  (execAll sql).filterMap fun m =>
    if hasParenChar m.table then none else some (refOfMatch m)

/-- Monaco completion item kinds used or mentioned by the source and spec. -/
inductive CompletionItemKind where
  | Snippet
  | Keyword
  | Table
  | Column
  | Field
deriving DecidableEq

/-- The replace range a candidate carries (Monaco line/column coordinates,
1-based). -/
structure WordRange where
  startLineNumber : Nat
  endLineNumber : Nat
  startColumn : Nat
  endColumn : Nat
deriving DecidableEq

/-- One completion candidate as built in `provideCompletionItems`
(UI-only metadata such as documentation and insert-text rules omitted). -/
structure CompletionItem where
  label : List Char
  kind : CompletionItemKind
  insertText : List Char
  range : WordRange
deriving DecidableEq

/-- The editor model text as lines: Monaco line numbers are 1-based and line
content excludes the newline. -/
def modelLines (text : List Char) : List (List Char) :=
  splitOnChar '\n' text

/-- `model.getValueInRange` for the span from column 1 of the cursor line up
to (exclusive) the cursor column: the line-prefix. -/
def getLineUpTo (text : List Char) (lineNumber col : Nat) : List Char :=
  ((modelLines text).getD (lineNumber - 1) []).take (col - 1)

/-- `model.getWordUntilPosition`: the span of the partial word ending at the
cursor, using the word characters alphanumeric and underscore; `endColumn`
is the cursor column. -/
def getWordUntilPosition (text : List Char) (lineNumber col : Nat) : WordRange :=
  { startLineNumber := lineNumber
    endLineNumber := lineNumber
    startColumn := col - ((getLineUpTo text lineNumber col).reverse.takeWhile isWordChar).length
    endColumn := col }

/-- The `thisToken` computation from `provideCompletionItems`:
`thisLine.trim().split(" ").slice(-1)?.[0] || ""`. -/
def precedingToken (thisLine : List Char) : List Char :=
  ((splitOnChar ' ' (trimList thisLine)).getLast?).getD []

/-- The `lastTokenBeforeDot` computation: `/(\w+)\.\w*$/.exec(thisToken)?.[1]`.
The regex matches a suffix made of a nonempty word-character run, a dot and a
possibly empty word-character run; the leftmost match makes the capture the
maximal word-character run immediately before the last dot, provided every
character after that dot is a word character. -/
def lastTokenBeforeDot (t : List Char) : Option (List Char) :=
  let r := t.reverse
  match r.drop ((r.takeWhile isWordChar).length) with
  | '.' :: r2 =>
    if (r2.takeWhile isWordChar).length = 0 then none
    else some (r2.takeWhile isWordChar).reverse
  | _ => none

/-- Lookup in the JS `Map` built by
`new Map(parse(...).map(({table_name, alias}) => [alias, table_name]))`:
for duplicate alias keys the last insertion wins. -/
def aliasLookup (refs : List TableRef) (k : List Char) : Option (List Char) :=
  ((refs.map (fun r => (r.aliasName, r.table_name))).reverse.find?
    (fun e => e.1 == k)).map (fun e => e.2)

/-- `provideCompletionItems` from monaco-editor.tsx. The static snippet is
the only candidate ever pushed: the table-name block and the column block
are commented out in the source, as is the `uniqBy` de-duplication, so the
alias map, the preceding token and the qualifier lookup are computed (below
as the discarded `_tableName`) and then dropped. The logging-only
`lastTokenBeforeSpace` value is omitted. -/
def provideCompletionItems (text : List Char) (lineNumber col : Nat) :
    List CompletionItem :=
  let range := getWordUntilPosition text lineNumber col
  let suggestions : List CompletionItem :=
    [{ label := "myCustomSnippet".toList
       kind := CompletionItemKind.Snippet
       insertText := "This is a piece of custom code".toList
       range := range }]
  let fullQueryText := text
  let tableNamesAndAliases := parseSqlAndFindTableNameAndAliases fullQueryText
  let thisLine := getLineUpTo text lineNumber col
  let thisToken := precedingToken thisLine
  let _tableName :=
    (lastTokenBeforeDot thisToken).bind (aliasLookup tableNamesAndAliases)
  suggestions

end MonacoEditor

namespace QueryInterface

/-- The tabular result shape consumed by the UI (`columns`, `rows`); cell
values are modelled as strings. -/
structure QueryResult where
  columns : List String
  rows : List (List String)
deriving DecidableEq

/-- One toast surfaced via `useToast` (destructive variant implied). -/
structure Toast where
  title : String
  description : String
deriving DecidableEq

/-- Outcome of awaiting the external `Query(connection, text)` collaborator:
success with a result, or rejection carrying a message when the thrown value
is an `Error` (`none` models a non-`Error` throw, which the source replaces
with a generic fallback). -/
inductive ExecOutcome where
  | success (result : QueryResult)
  | failure (message : Option String)
deriving DecidableEq

/-- The component state touched by `handleQuery` and `handleKeyDown`:
`queryText`, `results`, `queryHistory`, `historyIndex`, plus the toasts
surfaced so far (most recent first). -/
structure QIState where
  queryText : String
  results : Option QueryResult
  queryHistory : List String
  historyIndex : Int
  toasts : List Toast
deriving DecidableEq

/-- JS `queryText.trim()` on the `String` model. -/
def jsTrim (s : String) : String := (PureSql.trimList s.toList).asString

/-- The initial component state: empty buffer, no results, empty history,
cursor -1, no toasts. -/
def initialUIState : QIState :=
  { queryText := "", results := none, queryHistory := [], historyIndex := -1,
    toasts := [] }

/-- `handleQuery` from query-interface.tsx, with the awaited executor
outcome passed explicitly. The returned Bool records whether the external
executor was invoked. With no connection selected it only surfaces the
validation toast. On success it stores the result and, when the buffer is
non-blank, appends it to the history and resets the cursor. On failure it
only surfaces the error toast (`err.message` when the throw is an `Error`,
else the generic fallback). -/
def handleQuery (selectedConnection : Option String) (outcome : ExecOutcome)
    (st : QIState) : QIState × Bool :=
  match selectedConnection with
  | none =>
    ({ st with
        toasts := { title := "Error",
                    description := "Please select a connection first" } ::
          st.toasts },
      false)
  | some _ =>
    match outcome with
    | ExecOutcome.success result =>
      let st1 := { st with results := some result }
      (if jsTrim st1.queryText ≠ "" then
        { st1 with
            queryHistory := st1.queryHistory ++ [st1.queryText]
            historyIndex := -1 }
       else st1, true)
    | ExecOutcome.failure msg =>
      ({ st with
          toasts := { title := "Query Error",
                      description := msg.getD "An error occurred" } ::
            st.toasts },
        true)

/-- `handleKeyDown` from query-interface.tsx: suppressed entirely while the
completion popup is visible; only ArrowUp/ArrowDown act; with a non-empty
history the cursor moves clamped to `[-1, length-1]` and the buffer shows
`queryHistory[lastIndex - newIndex]`, or the empty string at cursor -1. -/
def handleKeyDown (key : String) (completionActive : Bool) (st : QIState) :
    QIState :=
  if completionActive then st
  else if key ≠ "ArrowUp" ∧ key ≠ "ArrowDown" then st
  else if st.queryHistory.length = 0 then st
  else
    let lastIndex : Int := (st.queryHistory.length : Int) - 1
    let newIndex : Int :=
      if key = "ArrowUp" then min (st.historyIndex + 1) lastIndex
      else max (st.historyIndex - 1) (-1)
    { st with
        historyIndex := newIndex
        queryText :=
          if newIndex = -1 then ""
          else st.queryHistory.getD (lastIndex - newIndex).toNat "" }

/-- One user-level operation on the component state: a run (with its
connection and awaited outcome) or a keypress (with popup visibility). -/
inductive UIOp where
  | run (conn : Option String) (outcome : ExecOutcome)
  | key (k : String) (completionActive : Bool)

/-- Apply one operation to the state. -/
def applyOp (op : UIOp) (st : QIState) : QIState :=
  match op with
  | UIOp.run conn outcome => (handleQuery conn outcome st).1
  | UIOp.key k active => handleKeyDown k active st

/-- The history-cursor invariant: `historyIndex` lies in `[-1, length-1]`. -/
def cursorInRange (st : QIState) : Prop :=
  -1 ≤ st.historyIndex ∧ st.historyIndex ≤ (st.queryHistory.length : Int) - 1

end QueryInterface

/-! Theorems settling the claims. -/

open MonacoEditor QueryInterface

/-- Helper: the element right after the maximal `takeWhile` run fails the
predicate. -/
theorem takeWhile_length_stop (p : Char → Bool) (l : List Char) {c : Char}
    (h : l[(l.takeWhile p).length]? = some c) : p c = false := by
  induction l with
  | nil => simp at h
  | cons a t ih =>
    rw [List.takeWhile_cons] at h
    by_cases hp : p a
    · rw [if_pos hp] at h
      simp only [List.length_cons, List.getElem?_cons_succ] at h
      exact ih h
    · rw [if_neg hp] at h
      simp only [List.length_nil, List.getElem?_cons_zero, Option.some.injEq] at h
      subst h
      exact Bool.eq_false_iff.mpr hp

/-- Helper: the character of `s` right after the `[^\s.]*` run starting at
`n` (when it exists) is whitespace or a dot. -/
theorem tokLen_stop (s : List Char) (n : Nat) {c : Char}
    (h : s[n + tokLen s n]? = some c) : isWs c = true ∨ c = '.' := by
  rw [← List.getElem?_drop] at h
  have hstop := takeWhile_length_stop (fun c => !isWs c && c != '.') (s.drop n) h
  simp only [Bool.and_eq_false_iff, Bool.not_eq_false', bne_eq_false_iff_eq] at hstop
  exact hstop

/-- Helper: capture group 1 is a maximal run, so the character immediately
after it is never an opening parenthesis (it is whitespace, a dot, or the
end of the text). -/
theorem tableEndAt_stop (s : List Char) (k : Nat) :
    s[tableEndAt s (k + tokLen s k)]? ≠ some '(' := by
  unfold tableEndAt
  split
  · intro hc
    rcases tokLen_stop s (k + tokLen s k + 1) hc with h | h
    · exact absurd h (by decide)
    · exact absurd h (by decide)
  · intro hc
    rcases tokLen_stop s k hc with h | h
    · exact absurd h (by decide)
    · exact absurd h (by decide)

/-- Helper: every match produced by `matchAt` has its group-1 end at
`tEndPos`, hence is never immediately followed by an opening parenthesis. -/
theorem matchAt_not_followed_by_paren {s : List Char} {i : Nat} {m : RawMatch}
    (h : matchAt s i = some m) : s[m.tableEnd]? ≠ some '(' := by
  unfold matchAt at h
  split at h
  · split at h
    · exact absurd h (by simp)
    · injection h with h2
      subst h2
      exact tableEndAt_stop s (kPos s i)
  · exact absurd h (by simp)

/-- Helper: every match emitted by the scan loop comes from `matchAt` at
some position. -/
theorem mem_scanLoop {s : List Char} {m : RawMatch} :
    ∀ (fuel pos : Nat), m ∈ scanLoop s fuel pos → ∃ i, matchAt s i = some m := by
  intro fuel
  induction fuel with
  | zero => intro pos h; simp [scanLoop] at h
  | succ n ih =>
    intro pos h
    rw [scanLoop] at h
    cases hm : matchAt s pos with
    | some m0 =>
      rw [hm] at h
      rcases List.mem_cons.mp h with h1 | h1
      · subst h1; exact ⟨pos, hm⟩
      · exact ih _ h1
    | none =>
      rw [hm] at h
      exact ih _ h

/-- C7 (confirmed): the scan is total (it is a function bounded by the text
length and never fails); no match's table-name segment is immediately
followed by an opening parenthesis in the text; no returned reference's
table name contains one; and absence of matches yields the empty
sequence. -/
theorem extractReferences_total_no_paren (s : List Char) :
    (∀ m ∈ execAll s, s[m.tableEnd]? ≠ some '(') ∧
    (∀ r ∈ parseSqlAndFindTableNameAndAliases s, ¬ ('(' ∈ r.table_name)) ∧
    (execAll s = [] → parseSqlAndFindTableNameAndAliases s = []) := by
  refine ⟨?_, ?_, ?_⟩
  · intro m hm
    obtain ⟨i, hi⟩ := mem_scanLoop (s.length + 1) 0 hm
    exact matchAt_not_followed_by_paren hi
  · intro r hr
    rw [parseSqlAndFindTableNameAndAliases, List.mem_filterMap] at hr
    obtain ⟨m, _, heq⟩ := hr
    by_cases hp : hasParenChar m.table
    · rw [if_pos hp] at heq; exact absurd heq (by simp)
    · rw [if_neg hp] at heq
      injection heq with h2
      subst h2
      intro hmem
      exact hp (List.any_eq_true.mpr ⟨'(', hmem, by simp⟩)
  · intro h
    rw [parseSqlAndFindTableNameAndAliases, h]
    rfl

/-- C7 witness: the theorem applied at the text `FROM tbl a`, whose single
match has its table segment `tbl` ending at position 8, and at the
matchless text `x`. -/
theorem extractReferences_total_no_paren_witness :
    (("FROM tbl a".toList)[8]? ≠ some '(') ∧
    (¬ ('(' ∈ "tbl".toList)) ∧
    parseSqlAndFindTableNameAndAliases ("x".toList) = [] := by
  refine ⟨?_, ?_, ?_⟩
  · exact (extractReferences_total_no_paren ("FROM tbl a".toList)).1
      ⟨0, 8, "tbl".toList, some ("a".toList), 10⟩ (by decide)
  · exact (extractReferences_total_no_paren ("FROM tbl a".toList)).2.1
      ⟨"tbl".toList, "a".toList⟩ (by decide)
  · exact (extractReferences_total_no_paren ("x".toList)).2.2 (by decide)

/-- C1 (counterexample): at the claim's own example — buffer
`SELECT c. FROM customers c` with the cursor just after `c.` (line 1,
column 10) — the completion result is exactly the one static snippet: it
contains no Column-kind candidate and no candidate with insert text `id` or
`name`, contradicting the claim that the columns of `customers` are
included. The alias map and qualifier are computed by the source, but the
block that would push column candidates is commented out. -/
theorem qualified_completion_has_no_columns :
    (provideCompletionItems ("SELECT c. FROM customers c".toList) 1 10).map
        (fun s => s.insertText) =
      ["This is a piece of custom code".toList] ∧
    (provideCompletionItems ("SELECT c. FROM customers c".toList) 1 10).map
        (fun s => s.kind) =
      [CompletionItemKind.Snippet] ∧
    lastTokenBeforeDot (precedingToken (getLineUpTo
        ("SELECT c. FROM customers c".toList) 1 10)) = some ("c".toList) ∧
    aliasLookup (parseSqlAndFindTableNameAndAliases
        ("SELECT c. FROM customers c".toList)) ("c".toList) =
      some ("customers".toList) := by
  refine ⟨by decide, by decide, by decide, by decide⟩

/-- C1 (amended): no table or column candidates are ever added, whether or
not the qualifier before the cursor resolves to a known alias: for every
buffer text and cursor position the completion result consists of exactly
the single static floor candidate (the Snippet-kind custom snippet). -/
theorem completion_always_static_floor (text : List Char)
    (lineNumber col : Nat) :
    (provideCompletionItems text lineNumber col).map
        (fun s => (s.insertText, s.kind)) =
      [("This is a piece of custom code".toList, CompletionItemKind.Snippet)] :=
  rfl

/-- C5 (confirmed): the final candidate sequence never contains two
candidates with the same insert text — it is always the single static
candidate, every schema-derived push (and the explicit `uniqBy`
de-duplication) being commented out in the source, so distinctness holds
for every input. -/
theorem completion_insertText_nodup (text : List Char) (lineNumber col : Nat) :
    List.Pairwise (fun a b => a.insertText ≠ b.insertText)
      (provideCompletionItems text lineNumber col) :=
  List.pairwise_singleton _ _

/-- Helper: the last element of a list according to `getLast?` is a
member. -/
theorem mem_of_getLastSome {α : Type} {l : List α} {a : α}
    (h : l.getLast? = some a) : a ∈ l := by
  induction l with
  | nil => simp at h
  | cons b t ih =>
    cases t with
    | nil =>
      rw [List.getLast?_singleton] at h
      injection h with h2
      subst h2
      exact List.mem_cons_self b []
    | cons c t2 =>
      rw [List.getLast?_cons_cons] at h
      exact List.mem_cons_of_mem b (ih h)

/-- Helper: `splitOnChar` never returns the empty list of parts. -/
theorem splitOnChar_ne_nil (sep : Char) (l : List Char) :
    splitOnChar sep l ≠ [] := by
  cases l with
  | nil => simp [splitOnChar]
  | cons c rest =>
    simp only [splitOnChar]
    split
    · simp
    · cases hh : splitOnChar sep rest with
      | nil => simp
      | cons p ps => simp

/-- Helper: no part produced by `splitOnChar` contains the separator. -/
theorem mem_splitOnChar_no_sep (sep : Char) :
    ∀ (l : List Char) (part : List Char), part ∈ splitOnChar sep l →
      part.all (fun c => c != sep) = true := by
  intro l
  induction l with
  | nil =>
    intro part h
    simp [splitOnChar] at h
    subst h
    rfl
  | cons c rest ih =>
    intro part h
    simp only [splitOnChar] at h
    by_cases hc : c = sep
    · rw [if_pos hc] at h
      rcases List.mem_cons.mp h with h1 | h1
      · subst h1; rfl
      · exact ih part h1
    · rw [if_neg hc] at h
      cases hh : splitOnChar sep rest with
      | nil =>
        rw [hh] at h
        simp only [List.mem_singleton] at h
        subst h
        simp [List.all_cons, hc]
      | cons p ps =>
        rw [hh] at h
        rcases List.mem_cons.mp h with h1 | h1
        · subst h1
          have hp : p.all (fun c => c != sep) = true :=
            ih p (by rw [hh]; exact List.mem_cons_self p ps)
          simp [List.all_cons, hc, hp]
        · exact ih part (by rw [hh]; exact List.mem_cons_of_mem p h1)

/-- Helper: the one-step unfolding of `splitOnChar` on a cons cell. -/
theorem splitOnChar_cons (sep c : Char) (rest : List Char) :
    splitOnChar sep (c :: rest) =
      if c = sep then [] :: splitOnChar sep rest
      else
        match splitOnChar sep rest with
        | [] => [[c]]
        | p :: ps => (c :: p) :: ps := rfl

/-- Helper: when the input is nonempty and does not end with the separator,
the last part produced by `splitOnChar` is nonempty. -/
theorem splitOnChar_last_ne_nil (sep : Char) :
    ∀ (t : List Char) (c : Char), t.getLast? = some c → c ≠ sep →
      ((splitOnChar sep t).getLast?).getD [] ≠ [] := by
  intro t
  induction t with
  | nil => intro c h; simp at h
  | cons a rest ih =>
    intro c h hc
    cases rest with
    | nil =>
      rw [List.getLast?_singleton] at h
      injection h with h2
      subst h2
      rw [splitOnChar_cons, if_neg hc]
      simp [splitOnChar]
    | cons b rest2 =>
      rw [List.getLast?_cons_cons] at h
      by_cases ha : a = sep
      · rw [splitOnChar_cons, if_pos ha]
        obtain ⟨q, qs, hL⟩ :=
          List.exists_cons_of_ne_nil (splitOnChar_ne_nil sep (b :: rest2))
        rw [hL, List.getLast?_cons_cons]
        have := ih c h hc
        rwa [hL] at this
      · rw [splitOnChar_cons, if_neg ha]
        obtain ⟨p, ps, hL⟩ :=
          List.exists_cons_of_ne_nil (splitOnChar_ne_nil sep (b :: rest2))
        rw [hL]
        cases ps with
        | nil => simp
        | cons q qs =>
          have := ih c h hc
          rw [hL, List.getLast?_cons_cons] at this
          simpa using this

/-- Helper: a nonempty trimmed prefix never ends in whitespace. -/
theorem trimList_getLast_not_ws {l : List Char} {c : Char}
    (h : (trimList l).getLast? = some c) : isWs c = false := by
  unfold trimList at h
  rw [List.getLast?_reverse] at h
  have h2 := List.head?_dropWhile_not isWs ((l.dropWhile isWs).reverse)
  rw [h] at h2
  exact h2

/-- C8 (counterexample): the line-prefix `SELECT ` (cursor right after the
space) is nonblank and ends in whitespace, yet `precedingToken` is
`SELECT`, not the empty string: trimming happens before the split, so a
prefix ending in whitespace yields its last word. -/
theorem precedingToken_trailing_space :
    precedingToken ("SELECT ".toList) = "SELECT".toList ∧
    isWs ' ' = true ∧ "SELECT".toList ≠ ([] : List Char) := by
  refine ⟨by decide, by decide, by decide⟩

/-- C8 (amended): `precedingToken` is the last token of the trimmed
line-prefix split on single space characters: it never contains a space
character, and it is the empty string exactly when the line-prefix is blank
(trims to nothing) — not whenever the prefix merely ends in whitespace. -/
theorem precedingToken_space_free_blank_iff (lp : List Char) :
    ((precedingToken lp).all (fun ch => ch != ' ') = true) ∧
    (precedingToken lp = [] ↔ trimList lp = []) := by
  constructor
  · unfold precedingToken
    cases hl : (splitOnChar ' ' (trimList lp)).getLast? with
    | none => rfl
    | some part =>
      simp only [Option.getD_some]
      exact mem_splitOnChar_no_sep ' ' (trimList lp) part (mem_of_getLastSome hl)
  · constructor
    · intro h
      by_contra hne
      obtain ⟨c, hc⟩ : ∃ c, (trimList lp).getLast? = some c := by
        cases hgl : (trimList lp).getLast? with
        | none => exact absurd (List.getLast?_eq_none_iff.mp hgl) hne
        | some c => exact ⟨c, rfl⟩
      have hw := trimList_getLast_not_ws hc
      have hcs : c ≠ ' ' := by
        intro he
        rw [he] at hw
        exact absurd hw (by decide)
      exact splitOnChar_last_ne_nil ' ' (trimList lp) c hc hcs h
    · intro h
      unfold precedingToken
      rw [h]
      rfl

/-- C2 (code_bug evidence): evaluating `parseSqlAndFindTableNameAndAliases`
at the claim's own example shows the reserved word WHERE taken as the alias,
because the filter `/on|where|inner|left|right|join/` is case-sensitive;
and a legitimate alias `month` is discarded (falling back to the table name)
because the same filter is an unanchored substring test that finds `on`
inside `month`. The claim's rule — alias kept exactly when it does not
case-insensitively EQUAL a reserved word — fails in both directions. -/
theorem parseSql_keyword_filter_diverges :
    parseSqlAndFindTableNameAndAliases ("SELECT * FROM orders WHERE x=1".toList) =
      [{ table_name := "orders".toList, aliasName := "WHERE".toList }] ∧
    parseSqlAndFindTableNameAndAliases ("SELECT a FROM t month".toList) =
      [{ table_name := "t".toList, aliasName := "t".toList }] := by
  constructor <;> decide

/-- C3 (confirmed): from an empty history, running A, a blank, then B leaves
entries `[A, B]` (the blank submission is not appended); ArrowUp, ArrowUp,
ArrowDown then show B, A, B; and ArrowUp while the completion popup is
visible leaves the whole state unchanged. -/
theorem history_recall_scenario :
    (let r : QueryResult := { columns := ["n"], rows := [["1"]] }
     let st1 := (handleQuery (some "c1") (ExecOutcome.success r)
       { initialUIState with queryText := "A" }).1
     let st2 := (handleQuery (some "c1") (ExecOutcome.success r)
       { st1 with queryText := "" }).1
     let st3 := (handleQuery (some "c1") (ExecOutcome.success r)
       { st2 with queryText := "B" }).1
     let st4 := handleKeyDown "ArrowUp" false st3
     let st5 := handleKeyDown "ArrowUp" false st4
     let st6 := handleKeyDown "ArrowDown" false st5
     st3.queryHistory = ["A", "B"] ∧ st4.queryText = "B" ∧
       st5.queryText = "A" ∧ st6.queryText = "B" ∧
       handleKeyDown "ArrowUp" true st6 = st6) := by
  decide

/-- C4 (counterexample): a failing run does NOT clear the stored result:
starting from a state holding a previous result, the failure branch leaves
`results` exactly as it was (still `some`), while the claim says it is
cleared. -/
theorem failed_run_keeps_previous_result :
    ((handleQuery (some "c1") (ExecOutcome.failure (some "boom"))
        { queryText := "SELECT 2", results := some { columns := ["id"], rows := [["1"]] },
          queryHistory := ["SELECT 1"], historyIndex := -1, toasts := [] }).1).results =
      some { columns := ["id"], rows := [["1"]] } ∧
    (some { columns := ["id"], rows := [["1"]] } : Option QueryResult) ≠ none := by
  constructor
  · rfl
  · intro h; cases h

/-- C4 (amended): when a run fails, the stored result is left unchanged (no
partial result from the failed run is stored), the buffer is untouched, and
an error toast is surfaced whose description is the collaborator's message
when available and the generic fallback string otherwise. -/
theorem failed_run_result_and_toast (st : QIState) (conn : String)
    (msg : Option String) :
    ((handleQuery (some conn) (ExecOutcome.failure msg) st).1.results = st.results) ∧
    ((handleQuery (some conn) (ExecOutcome.failure msg) st).1.queryText = st.queryText) ∧
    ((handleQuery (some conn) (ExecOutcome.failure msg) st).1.toasts =
      { title := "Query Error", description := msg.getD "An error occurred" } ::
        st.toasts) :=
  ⟨rfl, rfl, rfl⟩

/-- C6 (confirmed): with no connection selected, `handleQuery` never invokes
the external executor (the invocation flag is false and the result does not
depend on any executor outcome) and synchronously surfaces the validation
toast, leaving every other state field unchanged. -/
theorem no_connection_never_invokes (st : QIState) (outcome : ExecOutcome) :
    (handleQuery none outcome st).2 = false ∧
    (handleQuery none outcome st).1 =
      { st with
          toasts := { title := "Error",
                      description := "Please select a connection first" } ::
            st.toasts } :=
  ⟨rfl, rfl⟩

/-- Helper for C9: one `handleQuery` call preserves the cursor invariant. -/
theorem cursorInRange_handleQuery (conn : Option String) (outcome : ExecOutcome)
    (st : QIState) (h : cursorInRange st) :
    cursorInRange (handleQuery conn outcome st).1 := by
  obtain ⟨h1, h2⟩ := h
  cases conn with
  | none => exact ⟨h1, h2⟩
  | some c =>
    cases outcome with
    | failure msg => exact ⟨h1, h2⟩
    | success r =>
      simp only [handleQuery, cursorInRange]
      split
      · simp only [List.length_append, List.length_cons, List.length_nil]
        constructor <;> omega
      · exact ⟨h1, h2⟩

/-- Helper for C9: one `handleKeyDown` call preserves the cursor invariant,
clamping at the oldest entry and at -1. -/
theorem cursorInRange_handleKeyDown (key : String) (active : Bool)
    (st : QIState) (h : cursorInRange st) :
    cursorInRange (handleKeyDown key active st) := by
  obtain ⟨h1, h2⟩ := h
  unfold handleKeyDown
  split
  · exact ⟨h1, h2⟩
  · split
    · exact ⟨h1, h2⟩
    · split
      · exact ⟨h1, h2⟩
      · next hlen =>
        simp only [cursorInRange]
        split <;> constructor <;> omega

/-- C9 (confirmed): after any sequence of operations (runs with arbitrary
connections and outcomes — covering submissions — and keypresses — covering
recallOlder and recallNewer with any popup visibility), starting from the
initial state, the history cursor lies in `[-1, length-1]`: recallOlder
clamps at the oldest entry and recallNewer clamps at -1. -/
theorem history_cursor_always_in_range (ops : List UIOp) :
    cursorInRange (ops.foldl (fun st op => applyOp op st) initialUIState) := by
  have hstep : ∀ (l : List UIOp) (st : QIState), cursorInRange st →
      cursorInRange (l.foldl (fun st op => applyOp op st) st) := by
    intro l
    induction l with
    | nil => intro st h; exact h
    | cons op rest ih =>
      intro st h
      refine ih _ ?_
      cases op with
      | run conn outcome => exact cursorInRange_handleQuery conn outcome st h
      | key k active => exact cursorInRange_handleKeyDown k active st h
  exact hstep ops initialUIState ⟨by decide, by decide⟩

/-- C9 witness: the theorem applied to a concrete operation sequence
(submit a query, recall older twice, recall newer once). -/
theorem history_cursor_always_in_range_witness :
    cursorInRange
      (([UIOp.run (some "c1") (ExecOutcome.success { columns := [], rows := [] }),
         UIOp.key "ArrowUp" false, UIOp.key "ArrowUp" false,
         UIOp.key "ArrowDown" false] : List UIOp).foldl
        (fun st op => applyOp op st) initialUIState) :=
  history_cursor_always_in_range _

/-- C10 (confirmed): a failing run leaves the history entries and the
history cursor completely unchanged. -/
theorem failed_run_preserves_history (st : QIState) (conn : String)
    (msg : Option String) :
    ((handleQuery (some conn) (ExecOutcome.failure msg) st).1.queryHistory =
      st.queryHistory) ∧
    ((handleQuery (some conn) (ExecOutcome.failure msg) st).1.historyIndex =
      st.historyIndex) :=
  ⟨rfl, rfl⟩

end PureSql
